import Mathlib

/-!
Shallow embedding of the Markov-chain text generator in
`src/common/models/markov.py` (classes `NLPTextTokens`, `NLPTextStateSpace`,
`NLPTextMarkovChain`).

Python strings are modelled as `List Char` (`PyStr`): Python's
`str.split(' ')` and `' '.join` become `splitSp` and `joinSp` on character
lists.  Python dicts built by `{v: i for i, v in enumerate(lst)}` are
modelled by the list `lst` together with `dictFind`, which returns the index
of the *last* occurrence of a key (later comprehension entries overwrite
earlier ones).  The unordered iteration order of `list(set(xs))` is an
explicit parameter constrained by `SetOrder`.  Randomness
(`np.random.choice`) is an explicit oracle argument, and Python exceptions
are `Option.none`.
-/

namespace MarkovSpec

abbrev PyStr := List Char

/-- Python `\s` on the ASCII range (and the characters stripped by `str.strip`). -/
def isPySpace (c : Char) : Bool :=
  c = ' ' || c = '\t' || c = '\n' || c = '\r' || c = '\x0b' || c = '\x0c'

/-- `re.sub(r'(\S)(\n)(\S)', r'\1 \2 \3', s)`: left-to-right scan, a match
consumes three characters and re-emits them with spaces around the newline. -/
def padNewlines : PyStr → PyStr
  | a :: '\n' :: b :: rest =>
      if !isPySpace a && !isPySpace b then
        a :: ' ' :: '\n' :: ' ' :: b :: padNewlines rest
      else
        a :: padNewlines ('\n' :: b :: rest)
  | a :: rest => a :: padNewlines rest
  | [] => []

/-- `str.translate(str.maketrans('', '', '"()_\n'))`: delete those characters. -/
def removeChars (l : PyStr) : PyStr :=
  l.filter (fun c => !(c = '"' || c = '(' || c = ')' || c = '_' || c = '\n'))

/-- `str.translate(str.maketrans({k: f' {k} ' for k in '!?.,:-;'}))`:
surround each punctuation character with single spaces. -/
def padPunct (l : PyStr) : PyStr :=
  (l.map (fun c =>
    if c = '!' || c = '?' || c = '.' || c = ',' || c = ':' || c = '-' || c = ';'
    then [' ', c, ' '] else [c])).flatten

/-- `re.sub(' +', ' ', s)`: collapse each run of spaces to a single space. -/
def collapseSpaces : PyStr → PyStr
  | [] => []
  | [c] => [c]
  | a :: b :: rest =>
      if a = ' ' && b = ' ' then collapseSpaces (b :: rest)
      else a :: collapseSpaces (b :: rest)

/-- `str.strip()`. -/
def pyStrip (l : PyStr) : PyStr :=
  ((l.dropWhile isPySpace).reverse.dropWhile isPySpace).reverse

/-- `NLPTextTokens.preprocess`. -/
def preprocess (raw : PyStr) : PyStr :=
  pyStrip (collapseSpaces (padPunct (removeChars (padNewlines raw))))

/-- Python `content.split(' ')`: split on every single space character;
empty pieces are kept, and splitting the empty string yields `[[]]`. -/
def splitSp : PyStr → List PyStr
  | [] => [[]]
  | c :: rest =>
      if c = ' ' then [] :: splitSp rest
      else (splitSp rest).modifyHead (fun t => c :: t)

/-- Python `' '.join(pieces)`. -/
def joinSp : List PyStr → PyStr
  | [] => []
  | [t] => t
  | t :: ts => t ++ ' ' :: joinSp ts

/-- Lookup in the dict `{v: i for i, v in enumerate(l)}`: the index of the
last occurrence of `s` in `l` (later assignments overwrite earlier ones),
`none` when `s` is not a key (Python `KeyError`). -/
def dictFindAux (i : Nat) : List PyStr → PyStr → Option Nat
  | [], _ => none
  | t :: ts, s =>
      match dictFindAux (i + 1) ts s with
      | some j => some j
      | none => if t = s then some i else none

def dictFind (l : List PyStr) (s : PyStr) : Option Nat :=
  dictFindAux 0 l s

/-- Number of keys of the dict `{v: i for i, v in enumerate(l)}`. -/
def dictSize (l : List PyStr) : Nat :=
  l.dedup.length

/-- Python string `<=` restricted to what `list.sort()` of the distinct
tokens needs: lexicographic comparison of code points. -/
def lexLe : PyStr → PyStr → Bool
  | [], _ => true
  | _ :: _, [] => false
  | a :: as, b :: bs =>
      if a.toNat < b.toNat then true
      else if a.toNat = b.toNat then lexLe as bs
      else false

def LexLeP (a b : PyStr) : Prop := lexLe a b = true

instance : DecidableRel LexLeP := fun a b => decEq (lexLe a b) true

/-- `list(set(xs))` followed by `.sort()`: the sorted list of the distinct
elements.  (Any iteration order of the set produces the same sorted list.) -/
def sortedDistinct (l : List PyStr) : List PyStr :=
  List.insertionSort LexLeP l.dedup

/-- The reserved vocabulary sentinel `'<| unknown |>'`. -/
def vocabSentinel : PyStr := "<| unknown |>".toList

/-- Token list of `NLPTextTokens.tokenize`: `content.split(' ')`. -/
def tokensOf (content : PyStr) : List PyStr :=
  splitSp content

/-- Vocabulary of `NLPTextTokens.tokenize`, as the enumerated key list of
`content_dict`: sorted distinct tokens followed by the sentinel. -/
def vocabOf (content : PyStr) : List PyStr :=
  sortedDistinct (splitSp content) ++ [vocabSentinel]

/-- `NLPTextTokens.total_tokens`. -/
def totalTokens (content : PyStr) : Nat :=
  (tokensOf content).length

/-- `NLPTextTokens.total_unique_tokens` (`len(list(set(tokens)))`). -/
def totalUniqueTokens (content : PyStr) : Nat :=
  (tokensOf content).dedup.length

/-- Python `zip(*sequences)` over a list of sequences, each tuple kept as a
list: the k-th output entry pairs the k-th elements of all sequences, and
the output stops at the shortest sequence. -/
def multiZip : List (List PyStr) → List (List PyStr)
  | [] => []
  | [l] => l.map (fun x => [x])
  | l :: ls => (l.zip (multiZip ls)).map (fun p => p.1 :: p.2)

/-- `NLPTextStateSpace.generate_ngrams`:
`sequences = [tokens[i:] for i in range(n)]`,
`[' '.join(ngram) for ngram in list(zip(*sequences))]`. -/
def ngramsList (tokens : List PyStr) (n : Nat) : List PyStr :=
  (multiZip ((List.range n).map (fun i => tokens.drop i))).map joinSp

/-- The reserved state sentinel `'<| unknwon |>'` (typo as in the source). -/
def stateSentinel : PyStr := "<| unknwon |>".toList

/-- `order` is an admissible iteration order of `list(set(l))`: the distinct
elements of `l`, each exactly once, in some unspecified order. -/
def SetOrder (order : List PyStr) (l : List PyStr) : Prop :=
  order.Nodup ∧ order.Perm l.dedup

/-- Key list of `NLPTextStateSpace.generate_state_space` for iteration order
`order` of `list(set(ngrams))`: the distinct n-grams followed by the
appended sentinel state. -/
def stateList (order : List PyStr) : List PyStr :=
  order ++ [stateSentinel]

/-- State-space dict lookup (`self._state_space[ngram]`). -/
def stateFind (order : List PyStr) (s : PyStr) : Option Nat :=
  dictFind (stateList order) s

/-- Total version of the state index used while building the matrix; the
default is never reached because every scanned n-gram is a dict key. -/
def stateIdx (order : List PyStr) (s : PyStr) : Nat :=
  (stateFind order s).getD 0

/-- Total version of the vocabulary index (`self._content.mapping[token]`);
the default is never reached because every token is a vocabulary key. -/
def vocabIdx (content : PyStr) (s : PyStr) : Nat :=
  (dictFind (vocabOf content) s).getD 0

/-- `' '.join(tokens[p : p + n])`. -/
def ngramAt (tokens : List PyStr) (n p : Nat) : PyStr :=
  joinSp ((tokens.drop p).take n)

/-- The `(row_ind, col_ind)` pairs pushed by the scan in
`generate_transition_matrix`: one `(state index, next-token index)` pair
(with value 1) for each `i in range(len(tokens[:-n]))`. -/
def cooEntries (content : PyStr) (order : List PyStr) (n : Nat) :
    List (Nat × Nat) :=
  (List.range ((tokensOf content).length - n)).map (fun p =>
    (stateIdx order (ngramAt (tokensOf content) n p),
     vocabIdx content ((tokensOf content).getD (p + n) [])))

/-- One COO increment: add 1 at the entry named by `e`. -/
def cooAdd (M : Nat → Nat → Nat) (e : Nat × Nat) : Nat → Nat → Nat :=
  fun i j => if e = (i, j) then M i j + 1 else M i j

/-- The accumulation step of
`scipy.sparse.coo_matrix((values, (row_ind, col_ind)))` with all values 1:
duplicate `(i, j)` entries are summed.  scipy's index-vs-shape validation
(`_check`) is modelled separately in `cooInShape` /
`generateTransitionMatrix`; `cooMatrix` is the matrix of entry counts that
scipy stores once that validation has passed. -/
def cooMatrix (es : List (Nat × Nat)) : Nat → Nat → Nat :=
  es.foldl cooAdd (fun _ _ => 0)

/-- Entries of the COO accumulation over the scan of
`NLPTextStateSpace.generate_transition_matrix`.  On every input where the
construction passes scipy's index validation (in particular, on every
successfully constructed state space) this is the entry function of the
matrix the source returns; `generateTransitionMatrix` couples it with that
validation. -/
def transitionMatrix (content : PyStr) (order : List PyStr) (n : Nat) :
    Nat → Nat → Nat :=
  cooMatrix (cooEntries content order n)

/-- The declared matrix shape
`(len(self._state_space), len(self._content.mapping))`. -/
def matrixShape (content : PyStr) (order : List PyStr) : Nat × Nat :=
  (dictSize (stateList order), dictSize (vocabOf content))

/-- scipy's `coo_matrix` index validation (`coo_matrix._check`): every
pushed row index must lie below the declared row count and every column
index below the declared column count, else construction raises
`ValueError` (`row index exceeds matrix dimensions`). -/
def cooInShape (es : List (Nat × Nat)) (shape : Nat × Nat) : Bool :=
  es.all (fun e => e.1 < shape.1 && e.2 < shape.2)

/-- `NLPTextStateSpace.generate_transition_matrix`: push one entry per scan
window into `coo_matrix(..., shape=(len(state_space), len(mapping)))`.
When scipy's index validation passes, the result is the duplicate-summing
count matrix together with its declared shape; when a pushed index falls
outside the declared shape (reachable when a scanned n-gram collides with
the appended sentinel state, collapsing the dict), `coo_matrix` raises
`ValueError`, modelled as `none`. -/
def generateTransitionMatrix (content : PyStr) (order : List PyStr)
    (n : Nat) : Option ((Nat → Nat → Nat) × (Nat × Nat)) :=
  if cooInShape (cooEntries content order n) (matrixShape content order)
  then some (cooMatrix (cooEntries content order n),
    matrixShape content order)
  else none

/-- Total count of row `i` over the vocabulary columns. -/
def rowSum (content : PyStr) (order : List PyStr) (n i : Nat) : Nat :=
  ((List.range (vocabOf content).length).map
    (fun j => transitionMatrix content order n i j)).sum

/-- `sklearn.preprocessing.normalize(S, norm='l1', axis=1)` entrywise: each
row is divided by its L1 norm, rows with zero norm are divided by 1 and so
stay zero. -/
def probMatrix (content : PyStr) (order : List PyStr) (n : Nat)
    (i j : Nat) : ℚ :=
  let s := rowSum content order n i
  (transitionMatrix content order n i j : ℚ) / (if s = 0 then 1 else (s : ℚ))

/-- Sum of row `i` of the probability matrix over the vocabulary columns. -/
def rowProbSum (content : PyStr) (order : List PyStr) (n i : Nat) : ℚ :=
  ((List.range (vocabOf content).length).map
    (fun j => probMatrix content order n i j)).sum

/-- Python `l[-n:]` for `n ≥ 1`. -/
def takeLast (l : List PyStr) (n : Nat) : List PyStr :=
  l.drop (l.length - n)

/-- `NLPTextMarkovChain.random_ngram`: `np.random.choice(self.state_space.ngrams)`,
a uniform draw over the ordered (duplicate-preserving) n-gram sequence.  The
draw is resolved by the oracle value `r`; `np.random.choice` of an empty
sequence raises `ValueError`, modelled as `none`. -/
def randomNgram (ngrams : List PyStr) (r : Nat) : Option PyStr :=
  if ngrams.isEmpty then none else ngrams.get? (r % ngrams.length)

/-- `NLPTextMarkovChain.check_prefix` (the caller-supplied seed string is
`pfx` here): keep the last `n` tokens; too-short or unknown seeds fall back
to `random_ngram()` (after a warning, which is not modelled). -/
def checkPfx (n : Nat) (ngrams : List PyStr) (r : Nat) (pfx : PyStr) :
    Option PyStr :=
  let pfxList := takeLast (splitSp pfx) n
  if pfxList.length < n then randomNgram ngrams r
  else
    let q := joinSp pfxList
    if q ∈ ngrams then some q else randomNgram ngrams r

/-- `np.random.choice(range(len(weights)), p=weights)`: raises (`none`) when
the weights do not sum to 1; otherwise returns an index of positive weight,
the draw being resolved by the oracle value `r`. -/
def sampleChoice (weights : List ℚ) (r : Nat) : Option Nat :=
  if weights.sum = 1 then
    let pos := (List.range weights.length).filter
      (fun j => decide (0 < weights.getD j 0))
    pos.get? (r % pos.length)
  else none

/-- `self._reverse_word_mapping[j]`: the reverse of the enumerated
vocabulary dict maps index `j` back to the `j`-th vocabulary entry. -/
def reverseWordMapping (content : PyStr) (j : Nat) : Option PyStr :=
  (vocabOf content).get? j

/-- `NLPTextMarkovChain.return_next_element`: repair the seed, look up its
state row of the probability matrix as a dense weight vector over the
vocabulary, sample a column, map it back to a token.  `r1` resolves the
possible `random_ngram` draw, `r2` the sampling draw. -/
def returnNextElement (content : PyStr) (order : List PyStr) (n : Nat)
    (r1 r2 : Nat) (pfx : PyStr) : Option PyStr :=
  (checkPfx n (ngramsList (tokensOf content) n) r1 pfx).bind (fun q =>
    match stateFind order q with
    | none => none
    | some i =>
      let weights := (List.range (vocabOf content).length).map
        (fun j => probMatrix content order n i j)
      (sampleChoice weights r2).bind (reverseWordMapping content))

/-- The `for i in range(range_length)` loop of `generate_sequence`: each
iteration appends one sampled word and slides the seed window to the last
`n` words.  `c` counts oracle draws already consumed. -/
def genLoop (content : PyStr) (order : List PyStr) (n : Nat)
    (oracle : Nat → Nat) : Nat → Nat → List PyStr → PyStr →
    Option (List PyStr)
  | 0, _, seq, _ => some seq
  | k + 1, c, seq, pfx =>
      (returnNextElement content order n (oracle c) (oracle (c + 1))
          pfx).bind (fun w =>
        let seq2 := seq ++ [w]
        genLoop content order n oracle k (c + 2) seq2
          (joinSp (takeLast seq2 n)))

/-- `NLPTextMarkovChain.generate_sequence`:  repair the seed, split it into
the initial sequence, loop `length - len(sequence)` times, join with
spaces. -/
def generateSequence (content : PyStr) (order : List PyStr) (n : Nat)
    (oracle : Nat → Nat) (len : Nat) (pfx : PyStr) : Option PyStr :=
  (checkPfx n (ngramsList (tokensOf content) n) (oracle 0) pfx).bind
    (fun q =>
      let seq := splitSp q
      (genLoop content order n oracle (len - seq.length) 1 seq q).map joinSp)

/-! ### Lemmas about `splitSp` and `joinSp` -/

theorem splitSp_ne_nil (l : PyStr) : splitSp l ≠ [] := by
  induction l with
  | nil => simp [splitSp]
  | cons c rest ih =>
      by_cases hc : c = ' '
      · simp [splitSp, hc]
      · simp only [splitSp, if_neg hc]
        cases h : splitSp rest with
        | nil => exact absurd h ih
        | cons x xs => simp [List.modifyHead]

theorem splitSp_no_space {l : PyStr} {t : PyStr} (ht : t ∈ splitSp l) :
    ' ' ∉ t := by
  induction l generalizing t with
  | nil =>
      simp only [splitSp, List.mem_singleton] at ht
      subst ht; simp
  | cons c rest ih =>
      by_cases hc : c = ' '
      · simp only [splitSp, if_pos hc, List.mem_cons] at ht
        rcases ht with h | h
        · subst h; simp
        · exact ih h
      · simp only [splitSp, if_neg hc] at ht
        cases h : splitSp rest with
        | nil => exact absurd h (splitSp_ne_nil rest)
        | cons x xs =>
            rw [h, List.modifyHead] at ht
            rcases List.mem_cons.mp ht with h1 | h1
            · subst h1
              intro hsp
              rcases List.mem_cons.mp hsp with h2 | h2
              · exact hc h2.symm
              · exact ih (h ▸ List.mem_cons_self x xs) h2
            · exact ih (h ▸ List.mem_cons_of_mem x h1)

theorem joinSp_splitSp (l : PyStr) : joinSp (splitSp l) = l := by
  induction l with
  | nil => simp [splitSp, joinSp]
  | cons c rest ih =>
      by_cases hc : c = ' '
      · subst hc
        simp only [splitSp, if_pos rfl]
        cases h : splitSp rest with
        | nil => exact absurd h (splitSp_ne_nil rest)
        | cons x xs =>
            rw [h] at ih
            simp [joinSp, ← ih]
      · simp only [splitSp, if_neg hc]
        cases h : splitSp rest with
        | nil => exact absurd h (splitSp_ne_nil rest)
        | cons x xs =>
            rw [h] at ih
            cases xs with
            | nil => simpa [List.modifyHead, joinSp] using congrArg (c :: ·) ih
            | cons y ys =>
                simpa [List.modifyHead, joinSp] using congrArg (c :: ·) ih

theorem splitSp_of_no_space {t : PyStr} (ht : ' ' ∉ t) : splitSp t = [t] := by
  induction t with
  | nil => simp [splitSp]
  | cons c rest ih =>
      have hc : c ≠ ' ' := fun h => ht (h ▸ List.mem_cons_self c rest)
      have hrest : ' ' ∉ rest := fun h => ht (List.mem_cons_of_mem c h)
      simp [splitSp, hc, ih hrest, List.modifyHead]

theorem splitSp_append_space {t : PyStr} (r : PyStr) (ht : ' ' ∉ t) :
    splitSp (t ++ ' ' :: r) = t :: splitSp r := by
  induction t with
  | nil => simp [splitSp]
  | cons c rest ih =>
      have hc : c ≠ ' ' := fun h => ht (h ▸ List.mem_cons_self c rest)
      have hrest : ' ' ∉ rest := fun h => ht (List.mem_cons_of_mem c h)
      simp [splitSp, hc, ih hrest, List.modifyHead]

theorem splitSp_joinSp {ls : List PyStr} (hne : ls ≠ [])
    (h : ∀ t ∈ ls, ' ' ∉ t) : splitSp (joinSp ls) = ls := by
  induction ls with
  | nil => exact absurd rfl hne
  | cons t ts ih =>
      cases ts with
      | nil =>
          simp only [joinSp]
          exact splitSp_of_no_space (h t (List.mem_cons_self t []))
      | cons u us =>
          have : joinSp (t :: u :: us) = t ++ ' ' :: joinSp (u :: us) := rfl
          rw [this, splitSp_append_space _ (h t (List.mem_cons_self t _)),
            ih (by simp) (fun x hx => h x (List.mem_cons_of_mem t hx))]

theorem length_splitSp_joinSp {ls : List PyStr} (hne : ls ≠ [])
    (h : ∀ t ∈ ls, ' ' ∉ t) : (splitSp (joinSp ls)).length = ls.length := by
  rw [splitSp_joinSp hne h]

/-! ### Lemmas about `dictFind` -/

theorem dictFindAux_eq (l : List PyStr) (s : PyStr) (i : Nat) :
    dictFindAux i l s = (dictFind l s).map (· + i) := by
  induction l generalizing i with
  | nil => simp [dictFindAux, dictFind]
  | cons t ts ih =>
      simp only [dictFind, dictFindAux] at *
      rw [ih (i + 1), ih 1]
      cases h : dictFindAux 0 ts s with
      | some j => simp; omega
      | none =>
          by_cases hts : t = s <;> simp [hts]

theorem dictFind_cons (t : PyStr) (ts : List PyStr) (s : PyStr) :
    dictFind (t :: ts) s =
      match dictFind ts s with
      | some j => some (j + 1)
      | none => if t = s then some 0 else none := by
  show dictFindAux 0 (t :: ts) s = _
  simp only [dictFindAux, dictFindAux_eq ts s 1]
  cases h : dictFind ts s <;> simp

theorem dictFind_get {l : List PyStr} {s : PyStr} {j : Nat}
    (h : dictFind l s = some j) : l.get? j = some s := by
  induction l generalizing j with
  | nil => simp [dictFind, dictFindAux] at h
  | cons t ts ih =>
      rw [dictFind_cons] at h
      cases h0 : dictFind ts s with
      | some j0 =>
          rw [h0] at h
          cases h
          simpa using ih h0
      | none =>
          rw [h0] at h
          by_cases hts : t = s
          · rw [if_pos hts] at h
            cases h
            simp [hts]
          · rw [if_neg hts] at h
            cases h

theorem dictFind_isSome_iff_mem (l : List PyStr) (s : PyStr) :
    (dictFind l s).isSome ↔ s ∈ l := by
  induction l with
  | nil => simp [dictFind, dictFindAux]
  | cons t ts ih =>
      rw [dictFind_cons, List.mem_cons]
      cases h0 : dictFind ts s with
      | some j0 =>
          rw [h0] at ih
          simp only [Option.isSome_some, true_iff]
          right
          exact ih.mp rfl
      | none =>
          rw [h0] at ih
          by_cases hts : t = s
          · simp [hts]
          · simp only [if_neg hts, Option.isSome_none, Bool.false_eq_true,
              false_iff]
            push_neg
            refine ⟨fun h => hts h.symm, fun h => ?_⟩
            exact (ih.not.mp (by simp)) h

theorem dictFind_lt_length {l : List PyStr} {s : PyStr} {j : Nat}
    (h : dictFind l s = some j) : j < l.length := by
  have := dictFind_get h
  exact List.get?_eq_some.mp this |>.1

theorem dictFind_of_mem {l : List PyStr} {s : PyStr} (h : s ∈ l) :
    ∃ j, dictFind l s = some j := by
  have := (dictFind_isSome_iff_mem l s).mpr h
  exact Option.isSome_iff_exists.mp this

theorem dictFind_of_get_nodup {l : List PyStr} {s : PyStr} {j : Nat}
    (hnd : l.Nodup) (h : l.get? j = some s) : dictFind l s = some j := by
  have hmem : s ∈ l := List.get?_mem h
  obtain ⟨j', hj'⟩ := dictFind_of_mem hmem
  have hg : l.get? j' = some s := dictFind_get hj'
  have : j' = j := by
    have hlt : j' < l.length := dictFind_lt_length hj'
    exact List.get?_inj hlt hnd (hg.trans h.symm)
  rw [hj', this]

/-! ### The sort order and the vocabulary -/

theorem lexLe_total (a b : PyStr) : lexLe a b = true ∨ lexLe b a = true := by
  induction a generalizing b with
  | nil => left; rfl
  | cons x xs ih =>
      cases b with
      | nil => right; rfl
      | cons y ys =>
          rcases Nat.lt_trichotomy x.toNat y.toNat with h | h | h
          · left; simp [lexLe, h]
          · rcases ih ys with h2 | h2
            · left; simp [lexLe, h, h2]
            · right; simp [lexLe, h.symm, h2, Nat.lt_irrefl]
          · right; simp [lexLe, h]

theorem lexLe_trans {a b c : PyStr} (h1 : lexLe a b = true)
    (h2 : lexLe b c = true) : lexLe a c = true := by
  induction a generalizing b c with
  | nil => rfl
  | cons x xs ih =>
      cases b with
      | nil => simp [lexLe] at h1
      | cons y ys =>
          cases c with
          | nil => simp [lexLe] at h2
          | cons z zs =>
              simp only [lexLe] at h1 h2 ⊢
              by_cases hxy : x.toNat < y.toNat
              · by_cases hyz : y.toNat < z.toNat
                · simp [Nat.lt_trans hxy hyz]
                · rw [if_pos hxy] at h1
                  by_cases hyz2 : y.toNat = z.toNat
                  · simp [hyz2 ▸ hxy]
                  · simp [hyz, hyz2] at h2
              · rw [if_neg hxy] at h1
                by_cases hxy2 : x.toNat = y.toNat
                · rw [if_pos hxy2] at h1
                  by_cases hyz : y.toNat < z.toNat
                  · simp [hxy2 ▸ hyz]
                  · rw [if_neg hyz] at h2
                    by_cases hyz2 : y.toNat = z.toNat
                    · have hxz : x.toNat = z.toNat := hxy2.trans hyz2
                      have hnlt : ¬x.toNat < z.toNat := by omega
                      rw [if_neg hnlt, if_pos hxz]
                      rw [if_pos hyz2] at h2
                      exact ih h1 h2
                    · simp [hyz2] at h2
                · simp [hxy2] at h1

instance : IsTotal PyStr LexLeP := ⟨lexLe_total⟩

instance : IsTrans PyStr LexLeP := ⟨fun _ _ _ => lexLe_trans⟩

theorem sortedDistinct_sorted (l : List PyStr) :
    List.Sorted LexLeP (sortedDistinct l) :=
  List.sorted_insertionSort LexLeP l.dedup

theorem sortedDistinct_perm (l : List PyStr) :
    (sortedDistinct l).Perm l.dedup :=
  List.perm_insertionSort LexLeP l.dedup

theorem sortedDistinct_nodup (l : List PyStr) : (sortedDistinct l).Nodup :=
  ((sortedDistinct_perm l).nodup_iff).mpr l.nodup_dedup

theorem mem_sortedDistinct_iff {l : List PyStr} {t : PyStr} :
    t ∈ sortedDistinct l ↔ t ∈ l := by
  rw [(sortedDistinct_perm l).mem_iff, List.mem_dedup]

theorem length_sortedDistinct (l : List PyStr) :
    (sortedDistinct l).length = l.dedup.length :=
  (sortedDistinct_perm l).length_eq

theorem space_mem_vocabSentinel : ' ' ∈ vocabSentinel := by decide

theorem vocabSentinel_not_token {content : PyStr} :
    vocabSentinel ∉ tokensOf content := fun h =>
  splitSp_no_space h space_mem_vocabSentinel

theorem vocabOf_nodup (content : PyStr) : (vocabOf content).Nodup := by
  rw [vocabOf, List.nodup_append]
  refine ⟨sortedDistinct_nodup _, List.nodup_singleton _, ?_⟩
  intro t ht hsent
  rw [List.mem_singleton] at hsent
  subst hsent
  exact vocabSentinel_not_token (mem_sortedDistinct_iff.mp ht)

theorem mem_vocabOf_of_mem_tokens {content : PyStr} {t : PyStr}
    (h : t ∈ tokensOf content) : t ∈ vocabOf content := by
  rw [vocabOf, List.mem_append]
  exact Or.inl (mem_sortedDistinct_iff.mpr h)

theorem vocabOf_length (content : PyStr) :
    (vocabOf content).length = totalUniqueTokens content + 1 := by
  rw [vocabOf, List.length_append, length_sortedDistinct]
  rfl

/-! ### The n-gram list as a sliding window -/

theorem zip_range_map (l : List PyStr) (m : Nat) (g : Nat → List PyStr)
    (f : PyStr → List PyStr → List PyStr) (hm : m ≤ l.length) :
    ((l.zip ((List.range m).map g)).map (fun ab => f ab.1 ab.2)) =
      (List.range m).map (fun p => f (l.getD p []) (g p)) := by
  induction l generalizing m g with
  | nil =>
      have : m = 0 := Nat.le_zero.mp hm
      subst this
      simp
  | cons a t ih =>
      cases m with
      | zero => simp
      | succ k =>
          have hk : k ≤ t.length := by simpa using hm
          rw [List.range_succ_eq_map]
          simp only [List.map_cons, List.map_map, List.zip_cons_cons,
            List.getD_cons_zero]
          congr 1
          have hcomp : g ∘ Nat.succ = fun p => g (p + 1) := rfl
          rw [hcomp, ih k (fun p => g (p + 1)) hk]
          apply List.map_congr_left
          intro p _
          simp [Function.comp, Nat.succ_eq_add_one, List.getD_cons_succ]

theorem take_one_windows (l : List PyStr) :
    (List.range l.length).map (fun p => (l.drop p).take 1) =
      l.map (fun x => [x]) := by
  induction l with
  | nil => simp
  | cons a t ih =>
      rw [List.length_cons, List.range_succ_eq_map]
      simp only [List.map_cons, List.map_map, List.drop_zero]
      have h1 : List.take 1 (a :: t) = [a] := rfl
      rw [h1]
      congr 1

theorem drop_take_window {l : List PyStr} {p n : Nat} (hp : p < l.length) :
    (l.drop p).take (n + 1) = l.getD p [] :: (l.drop (p + 1)).take n := by
  rw [List.drop_eq_getElem_cons hp, List.take_succ_cons,
    List.getD_eq_getElem l [] hp]

theorem multiZip_seqs (n : Nat) (hn : 1 ≤ n) (tokens : List PyStr) :
    multiZip ((List.range n).map (fun i => tokens.drop i)) =
      (List.range (tokens.length + 1 - n)).map
        (fun p => (tokens.drop p).take n) := by
  induction n generalizing tokens with
  | zero => omega
  | succ m ih =>
      cases Nat.eq_or_lt_of_le hn with
      | inl h1 =>
          have hm0 : m = 0 := by omega
          subst hm0
          have hr1 : List.range 1 = [0] := rfl
          rw [hr1]
          simp only [List.map_cons, List.map_nil, List.drop_zero,
            Nat.add_sub_cancel]
          show tokens.map (fun x => [x]) = _
          rw [take_one_windows]
      | inr h1 =>
          have hm : 1 ≤ m := by omega
          have hexp : (List.range (m + 1)).map (fun i => tokens.drop i) =
              tokens :: (List.range m).map (fun i => (tokens.drop 1).drop i) := by
            rw [List.range_succ_eq_map]
            simp only [List.map_cons, List.map_map, List.drop_zero]
            congr 1
            apply List.map_congr_left
            intro i _
            simp [Function.comp, Nat.succ_eq_add_one, List.drop_drop,
              Nat.add_comm]
          rw [hexp]
          cases tokens with
          | nil =>
              have hrhs : ([] : List PyStr).length + 1 - (m + 1) = 0 := by
                simp
              rw [hrhs]
              have hne : (List.range m).map
                  (fun i => (([] : List PyStr).drop 1).drop i) ≠ [] := by
                simp [List.range_eq_nil]
                omega
              obtain ⟨x, xs, hxs⟩ := List.exists_cons_of_ne_nil hne
              rw [hxs]
              show (([] : List PyStr).zip (multiZip (x :: xs))).map
                  (fun p => p.1 :: p.2) = _
              simp
          | cons a t =>
              have hdrop1 : (a :: t).drop 1 = t := rfl
              rw [hdrop1]
              have hne : (List.range m).map (fun i => t.drop i) ≠ [] := by
                simp [List.range_eq_nil]
                omega
              obtain ⟨x, xs, hxs⟩ := List.exists_cons_of_ne_nil hne
              rw [hxs]
              show ((a :: t).zip (multiZip (x :: xs))).map
                  (fun p => p.1 :: p.2) = _
              rw [← hxs, ih hm t]
              have hlen : t.length + 1 - m ≤ (a :: t).length := by
                rw [List.length_cons]
                omega
              rw [zip_range_map (a :: t) (t.length + 1 - m)
                (fun p => (t.drop p).take m) (fun c cs => c :: cs) hlen]
              have hcount : (a :: t).length + 1 - (m + 1) = t.length + 1 - m := by
                rw [List.length_cons]
                omega
              rw [hcount]
              apply List.map_congr_left
              intro p hp
              rw [List.mem_range] at hp
              have hplt : p < (a :: t).length := by
                rw [List.length_cons]
                omega
              rw [drop_take_window hplt]
              rw [List.drop_succ_cons]

theorem ngramsList_eq (tokens : List PyStr) {n : Nat} (hn : 1 ≤ n) :
    ngramsList tokens n =
      (List.range (tokens.length + 1 - n)).map (fun p => ngramAt tokens n p) := by
  rw [ngramsList, multiZip_seqs n hn tokens, List.map_map]
  rfl

theorem length_ngramsList (tokens : List PyStr) {n : Nat} (hn : 1 ≤ n) :
    (ngramsList tokens n).length = tokens.length + 1 - n := by
  rw [ngramsList_eq tokens hn, List.length_map, List.length_range]

theorem mem_ngramsList_iff {tokens : List PyStr} {n : Nat} (hn : 1 ≤ n)
    {g : PyStr} :
    g ∈ ngramsList tokens n ↔
      ∃ p, p < tokens.length + 1 - n ∧ g = ngramAt tokens n p := by
  rw [ngramsList_eq tokens hn, List.mem_map]
  constructor
  · rintro ⟨p, hp, rfl⟩
    exact ⟨p, List.mem_range.mp hp, rfl⟩
  · rintro ⟨p, hp, rfl⟩
    exact ⟨p, List.mem_range.mpr hp, rfl⟩

theorem window_length {tokens : List PyStr} {n p : Nat}
    (h : p + n ≤ tokens.length) : ((tokens.drop p).take n).length = n := by
  rw [List.length_take, List.length_drop]
  omega

theorem window_no_space {content : PyStr} {n p : Nat} {t : PyStr}
    (ht : t ∈ ((tokensOf content).drop p).take n) : ' ' ∉ t :=
  splitSp_no_space (List.mem_of_mem_drop (List.mem_of_mem_take ht))

theorem splitSp_ngramAt {content : PyStr} {n p : Nat} (hn : 1 ≤ n)
    (h : p + n ≤ (tokensOf content).length) :
    splitSp (ngramAt (tokensOf content) n p) =
      ((tokensOf content).drop p).take n := by
  rw [ngramAt]
  apply splitSp_joinSp
  · intro hnil
    have := window_length h
    rw [hnil] at this
    simp at this
    omega
  · exact fun t ht => window_no_space ht

theorem length_splitSp_mem_ngrams {content : PyStr} {n : Nat} {g : PyStr}
    (hn : 1 ≤ n) (hg : g ∈ ngramsList (tokensOf content) n) :
    (splitSp g).length = n := by
  obtain ⟨p, hp, rfl⟩ := (mem_ngramsList_iff hn).mp hg
  have hpn : p + n ≤ (tokensOf content).length := by omega
  rw [splitSp_ngramAt hn hpn, window_length hpn]

/-! ### COO accumulation and row normalization -/

theorem cooFold_apply (es : List (Nat × Nat)) (M : Nat → Nat → Nat)
    (i j : Nat) :
    (es.foldl cooAdd M) i j = M i j + es.countP (fun e => e = (i, j)) := by
  induction es generalizing M with
  | nil => simp [List.countP, List.countP.go]
  | cons e es ih =>
      rw [List.foldl_cons, ih (cooAdd M e), List.countP_cons]
      by_cases he : e = (i, j)
      · simp [cooAdd, he]
        omega
      · simp [cooAdd, he]

theorem cooMatrix_apply (es : List (Nat × Nat)) (i j : Nat) :
    cooMatrix es i j = es.countP (fun e => e = (i, j)) := by
  rw [cooMatrix, cooFold_apply]
  simp

theorem transitionMatrix_count (content : PyStr) (order : List PyStr)
    (n i j : Nat) :
    transitionMatrix content order n i j =
      (List.range ((tokensOf content).length - n)).countP (fun p =>
        stateIdx order (ngramAt (tokensOf content) n p) = i ∧
        vocabIdx content ((tokensOf content).getD (p + n) []) = j) := by
  rw [transitionMatrix, cooMatrix_apply, cooEntries, List.countP_map]
  apply List.countP_congr
  intro p _
  simp [Function.comp, Prod.ext_iff]

theorem vocabIdx_spec {content : PyStr} {t : PyStr}
    (h : t ∈ tokensOf content) :
    vocabIdx content t < (vocabOf content).length ∧
      (vocabOf content).get? (vocabIdx content t) = some t := by
  obtain ⟨j, hj⟩ := dictFind_of_mem (mem_vocabOf_of_mem_tokens h)
  have hidx : vocabIdx content t = j := by rw [vocabIdx, hj]; rfl
  rw [hidx]
  exact ⟨dictFind_lt_length hj, dictFind_get hj⟩

theorem transitionMatrix_le_rowSum (content : PyStr) (order : List PyStr)
    (n i j : Nat) (hj : j < (vocabOf content).length) :
    transitionMatrix content order n i j ≤ rowSum content order n i := by
  apply List.single_le_sum (fun x _ => Nat.zero_le x)
  exact List.mem_map_of_mem _ (List.mem_range.mpr hj)

theorem rowSum_zero_entry {content : PyStr} {order : List PyStr} {n i : Nat}
    (h : rowSum content order n i = 0) {j : Nat}
    (hj : j < (vocabOf content).length) :
    transitionMatrix content order n i j = 0 := by
  rw [rowSum] at h
  exact List.sum_eq_zero_iff.mp h _ (List.mem_map_of_mem _ (List.mem_range.mpr hj))

theorem rowProbSum_of_rowSum_zero (content : PyStr) (order : List PyStr)
    (n i : Nat) (h : rowSum content order n i = 0) :
    rowProbSum content order n i = 0 := by
  rw [rowProbSum]
  apply List.sum_eq_zero
  intro x hx
  obtain ⟨j, hj, rfl⟩ := List.mem_map.mp hx
  rw [List.mem_range] at hj
  rw [probMatrix]
  simp only [h, if_pos rfl]
  rw [rowSum_zero_entry h hj]
  simp

theorem rowProbSum_of_rowSum_ne_zero (content : PyStr) (order : List PyStr)
    (n i : Nat) (h : rowSum content order n i ≠ 0) :
    rowProbSum content order n i = 1 := by
  rw [rowProbSum]
  have hprob : ∀ j : Nat, probMatrix content order n i j =
      (transitionMatrix content order n i j : ℚ) *
        ((rowSum content order n i : ℚ))⁻¹ := by
    intro j
    rw [probMatrix]
    simp only [if_neg h]
    rw [div_eq_mul_inv]
  have hmap : (List.range (vocabOf content).length).map
      (fun j => probMatrix content order n i j) =
      (List.range (vocabOf content).length).map
        (fun j => (transitionMatrix content order n i j : ℚ) *
          ((rowSum content order n i : ℚ))⁻¹) := by
    apply List.map_congr_left
    intro j _
    exact hprob j
  rw [hmap, List.sum_map_mul_right]
  have hcast : ((List.range (vocabOf content).length).map
      (fun j => (transitionMatrix content order n i j : ℚ))).sum =
      ((rowSum content order n i : ℚ)) := by
    rw [rowSum, Nat.cast_list_sum, List.map_map]
    rfl
  rw [hcast]
  have hne : ((rowSum content order n i : ℚ)) ≠ 0 := by
    exact_mod_cast h
  field_simp

/-! ### Seed repair and sampling -/

theorem randomNgram_mem {ngrams : List PyStr} {r : Nat} {g : PyStr}
    (h : randomNgram ngrams r = some g) : g ∈ ngrams := by
  rw [randomNgram] at h
  by_cases hne : ngrams.isEmpty
  · rw [if_pos hne] at h
    cases h
  · rw [if_neg hne] at h
    exact List.get?_mem h

theorem randomNgram_isSome {ngrams : List PyStr} (r : Nat)
    (hne : ngrams ≠ []) : ∃ g, randomNgram ngrams r = some g ∧ g ∈ ngrams := by
  have hlen : 0 < ngrams.length := List.length_pos.mpr hne
  have hmod : r % ngrams.length < ngrams.length := Nat.mod_lt r hlen
  rw [randomNgram, if_neg (by simpa [List.isEmpty_iff] using hne)]
  exact ⟨ngrams.get ⟨r % ngrams.length, hmod⟩, List.get?_eq_get hmod,
    List.get_mem ngrams _ hmod⟩

theorem length_takeLast (l : List PyStr) (n : Nat) :
    (takeLast l n).length = min n l.length := by
  rw [takeLast, List.length_drop]
  omega

theorem mem_takeLast {l : List PyStr} {n : Nat} {t : PyStr}
    (h : t ∈ takeLast l n) : t ∈ l :=
  List.mem_of_mem_drop h

theorem takeLast_no_space {pfx : PyStr} {n : Nat} {t : PyStr}
    (h : t ∈ takeLast (splitSp pfx) n) : ' ' ∉ t :=
  splitSp_no_space (mem_takeLast h)

/-- Every `some` result of `check_prefix` is an n-gram of the model or the
rejoined last-`n` window of the seed (and in the latter case that window is
itself a member). -/
theorem checkPfx_some {n : Nat} {ngrams : List PyStr} {r : Nat} {pfx q : PyStr}
    (h : checkPfx n ngrams r pfx = some q) :
    q ∈ ngrams := by
  rw [checkPfx] at h
  by_cases hshort : (takeLast (splitSp pfx) n).length < n
  · rw [if_pos hshort] at h
    exact randomNgram_mem h
  · rw [if_neg hshort] at h
    by_cases hmem : joinSp (takeLast (splitSp pfx) n) ∈ ngrams
    · rw [if_pos hmem] at h
      cases h
      exact hmem
    · rw [if_neg hmem] at h
      exact randomNgram_mem h

theorem checkPfx_of_mem {n : Nat} {ngrams : List PyStr} (r : Nat)
    {pfx : PyStr} (hlen : (takeLast (splitSp pfx) n).length = n)
    (hmem : joinSp (takeLast (splitSp pfx) n) ∈ ngrams) :
    checkPfx n ngrams r pfx = some (joinSp (takeLast (splitSp pfx) n)) := by
  rw [checkPfx, if_neg (by omega), if_pos hmem]

/-- The repaired seed always splits into exactly `n` tokens. -/
theorem checkPfx_length {content : PyStr} {n : Nat} {r : Nat} {pfx q : PyStr}
    (hn : 1 ≤ n)
    (h : checkPfx n (ngramsList (tokensOf content) n) r pfx = some q) :
    (splitSp q).length = n := by
  rw [checkPfx] at h
  by_cases hshort : (takeLast (splitSp pfx) n).length < n
  · rw [if_pos hshort] at h
    exact length_splitSp_mem_ngrams hn (randomNgram_mem h)
  · rw [if_neg hshort] at h
    by_cases hmem : joinSp (takeLast (splitSp pfx) n) ∈
        ngramsList (tokensOf content) n
    · rw [if_pos hmem] at h
      cases h
      have hne : takeLast (splitSp pfx) n ≠ [] := by
        intro hnil
        rw [hnil] at hshort
        simp at hshort
        omega
      rw [splitSp_joinSp hne (fun t ht => takeLast_no_space ht)]
      have := length_takeLast (splitSp pfx) n
      omega
    · rw [if_neg hmem] at h
      exact length_splitSp_mem_ngrams hn (randomNgram_mem h)

theorem getD_map_range {V j : Nat} (f : Nat → ℚ) (hj : j < V) :
    ((List.range V).map f).getD j 0 = f j := by
  rw [List.getD_eq_getElem?_getD, List.getElem?_map]
  rw [List.getElem?_range hj]
  rfl

theorem sampleChoice_spec {weights : List ℚ} {r : Nat} {j : Nat}
    (h : sampleChoice weights r = some j) :
    j < weights.length ∧ 0 < weights.getD j 0 := by
  rw [sampleChoice] at h
  by_cases hsum : weights.sum = 1
  · rw [if_pos hsum] at h
    have hj := List.get?_mem h
    rw [List.mem_filter] at hj
    exact ⟨List.mem_range.mp hj.1, by simpa using hj.2⟩
  · rw [if_neg hsum] at h
    cases h

/-- A successfully sampled next element is a token of the training text. -/
theorem returnNextElement_token {content : PyStr} {order : List PyStr}
    {n r1 r2 : Nat} {pfx w : PyStr}
    (h : returnNextElement content order n r1 r2 pfx = some w) :
    w ∈ tokensOf content := by
  rw [returnNextElement] at h
  obtain ⟨q, hq, h⟩ := Option.bind_eq_some.mp h
  cases hsf : stateFind order q with
  | none => rw [hsf] at h; cases h
  | some i =>
      rw [hsf] at h
      simp only at h
      obtain ⟨j, hj, hw⟩ := Option.bind_eq_some.mp h
      obtain ⟨hjlt, hjpos⟩ := sampleChoice_spec hj
      rw [List.length_map, List.length_range] at hjlt
      rw [getD_map_range _ hjlt] at hjpos
      -- positive probability forces a positive transition count
      have hM : transitionMatrix content order n i j ≠ 0 := by
        intro hM0
        rw [probMatrix] at hjpos
        simp only [hM0] at hjpos
        simp at hjpos
      -- a positive count exhibits a scan entry with column j
      have hcount : 0 < (cooEntries content order n).countP
          (fun e => e = (i, j)) := by
        rw [transitionMatrix, cooMatrix_apply] at hM
        omega
      obtain ⟨e, he, hpe⟩ := List.countP_pos.mp hcount
      rw [cooEntries] at he
      obtain ⟨p, hp, hpe2⟩ := List.mem_map.mp he
      rw [List.mem_range] at hp
      have hpn : p + n < (tokensOf content).length := by omega
      have htok : (tokensOf content).getD (p + n) [] ∈ tokensOf content := by
        rw [List.getD_eq_getElem _ _ hpn]
        exact List.getElem_mem _
      have hcol : vocabIdx content ((tokensOf content).getD (p + n) []) = j := by
        have : e.2 = j := by
          simp only [decide_eq_true_eq] at hpe
          rw [hpe]
        rw [← hpe2] at this
        exact this
      obtain ⟨_, hget⟩ := vocabIdx_spec htok
      rw [hcol] at hget
      rw [reverseWordMapping, hget] at hw
      cases hw
      exact htok

/-- The generation loop: on success it appends exactly `k` words, all of
them space-free (so joining and re-splitting is faithful). -/
theorem genLoop_spec {content : PyStr} {order : List PyStr} {n : Nat}
    {oracle : Nat → Nat} :
    ∀ (k c : Nat) (seq : List PyStr) (pfx : PyStr) (out : List PyStr),
    (∀ t ∈ seq, ' ' ∉ t) →
    genLoop content order n oracle k c seq pfx = some out →
    out.length = seq.length + k ∧ ∀ t ∈ out, ' ' ∉ t := by
  intro k
  induction k with
  | zero =>
      intro c seq pfx out hsp h
      cases h
      exact ⟨rfl, hsp⟩
  | succ m ih =>
      intro c seq pfx out hsp h
      rw [genLoop] at h
      obtain ⟨w, hw, h2⟩ := Option.bind_eq_some.mp h
      have hwsp : ' ' ∉ w :=
        splitSp_no_space (returnNextElement_token hw)
      have hsp2 : ∀ t ∈ seq ++ [w], ' ' ∉ t := by
        intro t ht
        rcases List.mem_append.mp ht with h1 | h1
        · exact hsp t h1
        · rw [List.mem_singleton] at h1
          subst h1
          exact hwsp
      obtain ⟨hlen, hout⟩ := ih (c + 2) (seq ++ [w]) _ out hsp2 h2
      constructor
      · rw [hlen, List.length_append]
        simp
        omega
      · exact hout

/-! ### Concrete example inputs used by witnesses and counterexamples -/

instance (order l : List PyStr) : Decidable (SetOrder order l) :=
  inferInstanceAs (Decidable (order.Nodup ∧ order.Perm l.dedup))

/-- The preprocessed content of the training text `"a b c"`. -/
def exContent : PyStr := preprocess "a b c".toList

/-- A canonical admissible set order for the 2-gram state space of
`exContent`. -/
def exOrder : List PyStr := (ngramsList (tokensOf exContent) 2).dedup

/-- The same distinct 2-grams in the reverse iteration order (also
admissible for `list(set(...))`). -/
def exOrderSwap : List PyStr := ["b c".toList, "a b".toList]

/-! ### Claims -/

/-- C1 counterexample: for the tokenizer content `"<| unknwon |> x"` (a
fixed point of preprocessing) with `n = 3`, the scanned 3-gram
`'<| unknwon |>'` collides with the appended sentinel state: the dict
collapses to 2 keys but the colliding key's value is 2, so the scan pushes
row index 2 into declared shape `(2, V)` and `coo_matrix` raises
`ValueError` — `generate_transition_matrix` builds no matrix at all for
this content, refuting the unconditional entry formula. -/
theorem C1_counterexample :
    SetOrder
      ((ngramsList (tokensOf (preprocess "<| unknwon |> x".toList)) 3).dedup)
      (ngramsList (tokensOf (preprocess "<| unknwon |> x".toList)) 3) ∧
    generateTransitionMatrix (preprocess "<| unknwon |> x".toList)
      ((ngramsList (tokensOf (preprocess "<| unknwon |> x".toList)) 3).dedup)
      3 = none :=
  ⟨by decide, rfl⟩

/-- C1 amended: whenever `generate_transition_matrix` succeeds — scipy's
index-vs-shape validation passes, which holds in particular whenever no
scanned n-gram collides with the sentinel state — the matrix it builds
has, at entry `(i, j)`, exactly the number of window starts
`p ∈ 0..len(tokens)-n-1` whose n-gram has state index `i` and whose
following token has vocabulary index `j` (repeated observations accumulate
because COO construction sums duplicate entries), and its declared shape
is `(|state_space|, |vocabulary|)`; on collision contents construction
raises instead (see the counterexample). -/
theorem C1_transition_counts (content : PyStr) (n : Nat) (order : List PyStr)
    (hn1 : 2 ≤ n) (hn2 : n ≤ 5)
    (ho : SetOrder order (ngramsList (tokensOf content) n))
    (M : Nat → Nat → Nat) (shape : Nat × Nat)
    (hM : generateTransitionMatrix content order n = some (M, shape))
    (i j : Nat) :
    M i j =
      (List.range ((tokensOf content).length - n)).countP (fun p =>
        stateIdx order (ngramAt (tokensOf content) n p) = i ∧
        vocabIdx content ((tokensOf content).getD (p + n) []) = j) ∧
    shape = (dictSize (stateList order), dictSize (vocabOf content)) := by
  rw [generateTransitionMatrix] at hM
  by_cases hchk : cooInShape (cooEntries content order n)
      (matrixShape content order) = true
  · rw [if_pos hchk] at hM
    have hpair := Option.some.inj hM
    have hMeq : M = cooMatrix (cooEntries content order n) :=
      (congrArg Prod.fst hpair).symm
    have hshape : shape = matrixShape content order :=
      (congrArg Prod.snd hpair).symm
    subst hMeq
    subst hshape
    exact ⟨transitionMatrix_count content order n i j, rfl⟩
  · rw [if_neg hchk] at hM
    cases hM

theorem C1_witness :
    cooMatrix (cooEntries exContent exOrder 2) 0 2 =
      (List.range ((tokensOf exContent).length - 2)).countP (fun p =>
        stateIdx exOrder (ngramAt (tokensOf exContent) 2 p) = 0 ∧
        vocabIdx exContent ((tokensOf exContent).getD (p + 2) []) = 2) ∧
    matrixShape exContent exOrder =
      (dictSize (stateList exOrder), dictSize (vocabOf exContent)) :=
  C1_transition_counts exContent 2 exOrder (by decide) (by decide)
    (by decide) (cooMatrix (cooEntries exContent exOrder 2))
    (matrixShape exContent exOrder) rfl 0 2

/-- C2: for every state space, a probability-matrix row whose count row has
nonzero total sums to exactly 1, and a row whose count row has zero total
sums to 0 (it stays all-zero; no renormalization). -/
theorem C2_prob_row_sums (content : PyStr) (n : Nat) (order : List PyStr)
    (i : Nat) (hn1 : 2 ≤ n) (hn2 : n ≤ 5)
    (ho : SetOrder order (ngramsList (tokensOf content) n)) :
    (rowSum content order n i ≠ 0 → rowProbSum content order n i = 1) ∧
    (rowSum content order n i = 0 → rowProbSum content order n i = 0) :=
  ⟨rowProbSum_of_rowSum_ne_zero content order n i,
   rowProbSum_of_rowSum_zero content order n i⟩

theorem C2_witness :
    (rowSum exContent exOrder 2 0 ≠ 0 ∧ rowProbSum exContent exOrder 2 0 = 1)
      ∧ (rowSum exContent exOrder 2 1 = 0 ∧
        rowProbSum exContent exOrder 2 1 = 0) :=
  ⟨⟨by decide,
    (C2_prob_row_sums exContent 2 exOrder 0 (by decide) (by decide)
      (by decide)).1 (by decide)⟩,
   ⟨by decide,
    (C2_prob_row_sums exContent 2 exOrder 1 (by decide) (by decide)
      (by decide)).2 (by decide)⟩⟩

/-- C3 counterexample: for the state space built from the text `"a"` with
`n = 2` the n-gram sequence is empty, and `check_prefix` then raises
(`np.random.choice` of an empty sequence, modelled as `none`) instead of
returning a valid n-gram. -/
theorem C3_counterexample :
    ngramsList (tokensOf (preprocess "a".toList)) 2 = [] ∧
    checkPfx 2 (ngramsList (tokensOf (preprocess "a".toList)) 2) 0
      "x".toList = none := by decide

/-- C3 amended: whenever the state space's n-gram sequence is nonempty,
`check_prefix` never raises: it returns a member of the ordered n-gram
sequence, and returns exactly the rejoined last-`n` tokens of the seed
whenever that rejoin is itself a member. -/
theorem C3_checkPfx_total (content : PyStr) (n : Nat) (r : Nat) (pfx : PyStr)
    (hn1 : 2 ≤ n) (hn2 : n ≤ 5)
    (hne : ngramsList (tokensOf content) n ≠ []) :
    ∃ q, checkPfx n (ngramsList (tokensOf content) n) r pfx = some q ∧
      q ∈ ngramsList (tokensOf content) n ∧
      (joinSp (takeLast (splitSp pfx) n) ∈ ngramsList (tokensOf content) n →
        q = joinSp (takeLast (splitSp pfx) n)) := by
  have hn : 1 ≤ n := by omega
  by_cases hshort : (takeLast (splitSp pfx) n).length < n
  · obtain ⟨g, hg, hgm⟩ := randomNgram_isSome r hne
    refine ⟨g, ?_, hgm, ?_⟩
    · rw [checkPfx, if_pos hshort]
      exact hg
    · intro hmem
      exfalso
      have htl : takeLast (splitSp pfx) n ≠ [] := by
        intro h0
        have hlen0 : (takeLast (splitSp pfx) n).length = 0 := by rw [h0]; rfl
        rw [length_takeLast] at hlen0
        have hpos : 0 < (splitSp pfx).length :=
          List.length_pos.mpr (splitSp_ne_nil pfx)
        omega
      have := length_splitSp_mem_ngrams hn hmem
      rw [splitSp_joinSp htl (fun t ht => takeLast_no_space ht)] at this
      omega
  · by_cases hmem : joinSp (takeLast (splitSp pfx) n) ∈
        ngramsList (tokensOf content) n
    · exact ⟨_, checkPfx_of_mem r (by
        have := length_takeLast (splitSp pfx) n
        omega) hmem, hmem, fun _ => rfl⟩
    · obtain ⟨g, hg, hgm⟩ := randomNgram_isSome r hne
      refine ⟨g, ?_, hgm, fun h => absurd h hmem⟩
      rw [checkPfx, if_neg hshort, if_neg hmem]
      exact hg

theorem C3_witness :
    ngramsList (tokensOf exContent) 2 ≠ [] ∧
    (∃ q, checkPfx 2 (ngramsList (tokensOf exContent) 2) 0 "x".toList =
        some q ∧
      q ∈ ngramsList (tokensOf exContent) 2 ∧
      (joinSp (takeLast (splitSp "x".toList) 2) ∈
          ngramsList (tokensOf exContent) 2 →
        q = joinSp (takeLast (splitSp "x".toList) 2))) :=
  ⟨by decide,
   C3_checkPfx_total exContent 2 0 "x".toList (by decide) (by decide)
     (by decide)⟩

/-- C4 counterexample: in the state space of `"a b c"` with `n = 2`, the
2-gram `"b c"` occurs in the training token sequence (it is not the
sentinel and was not injected), yet its transition count row is all zero:
its only occurrence is the final window, which has no following token. -/
theorem C4_counterexample :
    SetOrder exOrder (ngramsList (tokensOf exContent) 2) ∧
    "b c".toList ∈ ngramsList (tokensOf exContent) 2 ∧
    rowSum exContent exOrder 2 (stateIdx exOrder "b c".toList) = 0 := by
  decide

/-- C4 amended: every n-gram that occurs at a window start that is followed
by a further token (window start `p` with `p + n < len(tokens)`) has a
transition count row with nonzero total; an all-zero row can occur only for
the sentinel state, for injected states, or for an n-gram whose only
occurrence is the final window. -/
theorem C4_followed_states_nonzero (content : PyStr) (n : Nat)
    (order : List PyStr) (p : Nat) (hn1 : 2 ≤ n) (hn2 : n ≤ 5)
    (ho : SetOrder order (ngramsList (tokensOf content) n))
    (hp : p < (tokensOf content).length - n) :
    rowSum content order n
      (stateIdx order (ngramAt (tokensOf content) n p)) ≠ 0 := by
  set i := stateIdx order (ngramAt (tokensOf content) n p) with hi
  have hpn : p + n < (tokensOf content).length := by omega
  have htok : (tokensOf content).getD (p + n) [] ∈ tokensOf content := by
    rw [List.getD_eq_getElem _ _ hpn]
    exact List.getElem_mem _
  set j := vocabIdx content ((tokensOf content).getD (p + n) []) with hj
  have hjlt : j < (vocabOf content).length := (vocabIdx_spec htok).1
  have hM : 0 < transitionMatrix content order n i j := by
    rw [transitionMatrix_count]
    rw [List.countP_pos]
    exact ⟨p, List.mem_range.mpr hp, by simp [hi, hj]⟩
  have hle := transitionMatrix_le_rowSum content order n i j hjlt
  omega

theorem C4_witness :
    rowSum exContent exOrder 2
      (stateIdx exOrder (ngramAt (tokensOf exContent) 2 0)) ≠ 0 :=
  C4_followed_states_nonzero exContent 2 exOrder 0 (by decide) (by decide)
    (by decide) (by decide)

/-- C5 counterexample: for the chain trained on `"a b c"` with `n = 2`,
`length = 3` and seed `"b c"` (whose repaired form has 2 ≤ 3 tokens),
`generate_sequence` does not return a 3-token string: sampling hits the
all-zero row of state `"b c"` and raises (modelled as `none`), for every
oracle — shown here at the oracle that always draws 0. -/
theorem C5_counterexample :
    checkPfx 2 (ngramsList (tokensOf exContent) 2) 0 "b c".toList =
      some "b c".toList ∧
    (splitSp "b c".toList).length ≤ 3 ∧
    generateSequence exContent exOrder 2 (fun _ => 0) 3 "b c".toList =
      none := by
  with_unfolding_all decide

/-- C5 amended: whenever `generate_sequence(length, pfx)` returns a string
(no sampling step raised) and the repaired seed has at most `length`
tokens, the returned string consists of exactly `length` space-separated
tokens: the repaired seed's tokens followed by one sampled token per
iteration. -/
theorem C5_generateSequence_length (content : PyStr) (order : List PyStr)
    (n : Nat) (oracle : Nat → Nat) (L : Nat) (pfx q s : PyStr)
    (hq : checkPfx n (ngramsList (tokensOf content) n) (oracle 0) pfx =
      some q)
    (hle : (splitSp q).length ≤ L)
    (hs : generateSequence content order n oracle L pfx = some s) :
    (splitSp s).length = L := by
  rw [generateSequence, hq, Option.some_bind] at hs
  obtain ⟨out, hout, hjoin⟩ := Option.map_eq_some'.mp hs
  obtain ⟨hlen, hsp⟩ := genLoop_spec (L - (splitSp q).length) 1 (splitSp q) q
    out (fun t ht => splitSp_no_space ht) hout
  have hqpos : 0 < (splitSp q).length :=
    List.length_pos.mpr (splitSp_ne_nil q)
  have houtne : out ≠ [] := by
    intro h0
    rw [h0] at hlen
    simp at hlen
    omega
  rw [← hjoin, splitSp_joinSp houtne hsp]
  omega

theorem C5_witness :
    (splitSp "a b c".toList).length = 3 :=
  C5_generateSequence_length exContent exOrder 2 (fun _ => 0) 3
    "a b".toList "a b".toList "a b c".toList (by decide) (by decide)
    (by with_unfolding_all decide)

/-- C6 counterexample: for the tokenizer content `"<| unknwon |>"` (a fixed
point of preprocessing) and `n = 3`, the single generated 3-gram equals the
appended sentinel state `'<| unknwon |>'`, the duplicate dictionary key
collapses, and the state index map has `distinct(ngrams)` = 1 entry instead
of `distinct(ngrams) + 1 = 2`. -/
theorem C6_counterexample :
    SetOrder ((ngramsList (tokensOf (preprocess "<| unknwon |>".toList)) 3).dedup)
      (ngramsList (tokensOf (preprocess "<| unknwon |>".toList)) 3) ∧
    dictSize (stateList
      ((ngramsList (tokensOf (preprocess "<| unknwon |>".toList)) 3).dedup)) ≠
      (ngramsList (tokensOf (preprocess "<| unknwon |>".toList)) 3).dedup.length
        + 1 := by
  decide

/-- C6 amended: for every tokenizer content and `n ∈ [2,5]` the n-gram
sequence has exactly `max(len(tokens) - n + 1, 0)` entries, and the state
index map has exactly `distinct(ngrams) + 1` entries provided the sentinel
state `'<| unknwon |>'` is not itself one of the generated n-grams (the
dictionary key collides and the map is one entry short otherwise). -/
theorem C6_ngram_and_state_counts (content : PyStr) (n : Nat)
    (order : List PyStr) (hn1 : 2 ≤ n) (hn2 : n ≤ 5)
    (ho : SetOrder order (ngramsList (tokensOf content) n)) :
    ((ngramsList (tokensOf content) n).length : ℤ) =
      max (((tokensOf content).length : ℤ) - (n : ℤ) + 1) 0 ∧
    (stateSentinel ∉ ngramsList (tokensOf content) n →
      dictSize (stateList order) =
        (ngramsList (tokensOf content) n).dedup.length + 1) := by
  constructor
  · rw [length_ngramsList (tokensOf content) (show 1 ≤ n by omega), max_def]
    split <;> omega
  · intro hsent
    have hnotord : stateSentinel ∉ order := by
      intro h
      exact hsent (List.mem_dedup.mp (ho.2.mem_iff.mp h))
    have hnd : (stateList order).Nodup := by
      rw [stateList, List.nodup_append]
      refine ⟨ho.1, List.nodup_singleton _, ?_⟩
      intro t ht hts
      rw [List.mem_singleton] at hts
      subst hts
      exact hnotord ht
    rw [dictSize, List.dedup_eq_self.mpr hnd, stateList, List.length_append,
      ho.2.length_eq]
    simp

theorem C6_witness :
    stateSentinel ∉ ngramsList (tokensOf exContent) 2 ∧
    dictSize (stateList exOrder) =
      (ngramsList (tokensOf exContent) 2).dedup.length + 1 :=
  ⟨by decide,
   (C6_ngram_and_state_counts exContent 2 exOrder (by decide) (by decide)
     (by decide)).2 (by decide)⟩

/-- C7: for every input text, `total_tokens()` is the token count,
`total_unique_tokens()` is the distinct token count, the vocabulary has
`total_unique_tokens() + 1` entries forming a bijection with `0..V-1`, the
distinct tokens are listed in sorted order, and the sentinel
`'<| unknown |>'` maps to index `V-1` and never occurs among the tokens. -/
theorem C7_tokenizer_invariants (raw : PyStr) :
    totalTokens (preprocess raw) = (tokensOf (preprocess raw)).length ∧
    totalUniqueTokens (preprocess raw) =
      (tokensOf (preprocess raw)).dedup.length ∧
    (vocabOf (preprocess raw)).length =
      totalUniqueTokens (preprocess raw) + 1 ∧
    (vocabOf (preprocess raw)).Nodup ∧
    (∀ s j, dictFind (vocabOf (preprocess raw)) s = some j ↔
      (vocabOf (preprocess raw)).get? j = some s) ∧
    dictFind (vocabOf (preprocess raw)) vocabSentinel =
      some ((vocabOf (preprocess raw)).length - 1) ∧
    vocabSentinel ∉ tokensOf (preprocess raw) ∧
    List.Sorted LexLeP (sortedDistinct (tokensOf (preprocess raw))) ∧
    (sortedDistinct (tokensOf (preprocess raw))).Perm
      (tokensOf (preprocess raw)).dedup := by
  set content := preprocess raw
  refine ⟨rfl, rfl, vocabOf_length content, vocabOf_nodup content, ?_, ?_,
    vocabSentinel_not_token, sortedDistinct_sorted _, sortedDistinct_perm _⟩
  · intro s j
    exact ⟨dictFind_get, dictFind_of_get_nodup (vocabOf_nodup content)⟩
  · have hget : (vocabOf content).get?
        (sortedDistinct (tokensOf content)).length = some vocabSentinel := by
      rw [vocabOf]
      exact List.get?_concat_length _ _
    have hlen : (vocabOf content).length - 1 =
        (sortedDistinct (tokensOf content)).length := by
      rw [vocabOf, List.length_append]
      simp [tokensOf]
    rw [hlen]
    exact dictFind_of_get_nodup (vocabOf_nodup content) hget

/-- C8: `check_prefix` is idempotent on already-valid seeds: whenever the
rejoined last-`n` tokens of the seed form a member of the n-gram sequence,
`check_prefix` returns that rejoin deterministically, a second application
returns it unchanged, and a seed that is itself a member n-gram is
returned unchanged. -/
theorem C8_checkPfx_idempotent (content : PyStr) (n : Nat) (r1 r2 : Nat)
    (pfx : PyStr) (hn1 : 2 ≤ n) (hn2 : n ≤ 5)
    (hmem : joinSp (takeLast (splitSp pfx) n) ∈
      ngramsList (tokensOf content) n) :
    checkPfx n (ngramsList (tokensOf content) n) r1 pfx =
      some (joinSp (takeLast (splitSp pfx) n)) ∧
    checkPfx n (ngramsList (tokensOf content) n) r2
        (joinSp (takeLast (splitSp pfx) n)) =
      some (joinSp (takeLast (splitSp pfx) n)) ∧
    (pfx ∈ ngramsList (tokensOf content) n →
      checkPfx n (ngramsList (tokensOf content) n) r1 pfx = some pfx) := by
  have hn : 1 ≤ n := by omega
  have htl : takeLast (splitSp pfx) n ≠ [] := by
    intro h0
    have h1 := length_splitSp_mem_ngrams hn hmem
    rw [h0] at h1
    simp [joinSp, splitSp] at h1
    omega
  have hsplit : splitSp (joinSp (takeLast (splitSp pfx) n)) =
      takeLast (splitSp pfx) n :=
    splitSp_joinSp htl (fun t ht => takeLast_no_space ht)
  have hlen : (takeLast (splitSp pfx) n).length = n := by
    have h1 := length_splitSp_mem_ngrams hn hmem
    rw [hsplit] at h1
    exact h1
  have h1 : checkPfx n (ngramsList (tokensOf content) n) r1 pfx =
      some (joinSp (takeLast (splitSp pfx) n)) :=
    checkPfx_of_mem r1 hlen hmem
  have htl2 : takeLast (splitSp (joinSp (takeLast (splitSp pfx) n))) n =
      takeLast (splitSp pfx) n := by
    rw [hsplit, takeLast, hlen]
    simp
  refine ⟨h1, ?_, ?_⟩
  · have h2 := @checkPfx_of_mem n (ngramsList (tokensOf content) n) r2
      (joinSp (takeLast (splitSp pfx) n))
    rw [htl2] at h2
    exact h2 hlen hmem
  · intro hpfxmem
    have hpfxlen : (splitSp pfx).length = n :=
      length_splitSp_mem_ngrams hn hpfxmem
    have htake : takeLast (splitSp pfx) n = splitSp pfx := by
      rw [takeLast, hpfxlen]
      simp
    rw [h1, htake, joinSp_splitSp]

theorem C8_witness :
    joinSp (takeLast (splitSp "a b".toList) 2) ∈
      ngramsList (tokensOf exContent) 2 ∧
    checkPfx 2 (ngramsList (tokensOf exContent) 2) 0 "a b".toList =
      some (joinSp (takeLast (splitSp "a b".toList) 2)) ∧
    checkPfx 2 (ngramsList (tokensOf exContent) 2) 1
        (joinSp (takeLast (splitSp "a b".toList) 2)) =
      some (joinSp (takeLast (splitSp "a b".toList) 2)) :=
  ⟨by decide,
   (C8_checkPfx_idempotent exContent 2 0 1 "a b".toList (by decide)
     (by decide) (by decide)).1,
   (C8_checkPfx_idempotent exContent 2 0 1 "a b".toList (by decide)
     (by decide) (by decide)).2.1⟩

/-- C9 counterexample: the state index assignment is not deterministic
across runs: two admissible iteration orders of `list(set(ngrams))` for the
same input `"a b c"`, `n = 2`, produce different state index maps (the
2-gram `"a b"` gets index 0 under one order and index 1 under the other). -/
theorem C9_counterexample :
    SetOrder exOrder (ngramsList (tokensOf exContent) 2) ∧
    SetOrder exOrderSwap (ngramsList (tokensOf exContent) 2) ∧
    stateFind exOrder "a b".toList ≠ stateFind exOrderSwap "a b".toList := by
  decide

/-- C9 amended: the *key set* of the state index map is determined by the
input alone — any two admissible set-iteration orders yield maps defined on
exactly the same n-grams — and regeneration with the same iteration order
reproduces the same map; but the index assignment itself depends on the
unordered-set iteration order, so two runs need not agree (see the
counterexample). -/
theorem C9_state_keys_stable (content : PyStr) (n : Nat)
    (o1 o2 : List PyStr) (hn1 : 2 ≤ n) (hn2 : n ≤ 5)
    (h1 : SetOrder o1 (ngramsList (tokensOf content) n))
    (h2 : SetOrder o2 (ngramsList (tokensOf content) n)) (s : PyStr) :
    ((stateFind o1 s).isSome ↔ (stateFind o2 s).isSome) := by
  rw [stateFind, stateFind, dictFind_isSome_iff_mem, dictFind_isSome_iff_mem]
  rw [stateList, stateList, List.mem_append, List.mem_append]
  rw [h1.2.mem_iff, h2.2.mem_iff]

theorem C9_witness :
    (stateFind exOrder "a b".toList).isSome ↔
      (stateFind exOrderSwap "a b".toList).isSome :=
  C9_state_keys_stable exContent 2 exOrder exOrderSwap (by decide)
    (by decide) (by decide) (by decide) "a b".toList

/-- C10: when `length` is strictly smaller than the token count of the
repaired seed (which always has exactly `n` tokens), the loop bound
`length - len(sequence)` is negative, `range` of it is empty, no sampling
happens at all, and `generate_sequence` returns the whole repaired seed —
a string of `n > length` tokens, not truncated to `length`. -/
theorem C10_short_length_returns_seed (content : PyStr) (order : List PyStr)
    (n : Nat) (oracle : Nat → Nat) (L : Nat) (pfx q : PyStr) (hn : 1 ≤ n)
    (hq : checkPfx n (ngramsList (tokensOf content) n) (oracle 0) pfx =
      some q)
    (hL : L < n) :
    (splitSp q).length = n ∧ L < (splitSp q).length ∧
    generateSequence content order n oracle L pfx = some q ∧
    (∀ oracle2 : Nat → Nat, oracle2 0 = oracle 0 →
      generateSequence content order n oracle2 L pfx = some q) := by
  have hlen : (splitSp q).length = n := checkPfx_length hn hq
  have hgen : ∀ oracle2 : Nat → Nat, oracle2 0 = oracle 0 →
      generateSequence content order n oracle2 L pfx = some q := by
    intro oracle2 h02
    rw [generateSequence, h02, hq, Option.some_bind]
    show Option.map joinSp
      (genLoop content order n oracle2 (L - (splitSp q).length) 1
        (splitSp q) q) = some q
    have hk : L - (splitSp q).length = 0 := by omega
    rw [hk]
    show Option.map joinSp (some (splitSp q)) = some q
    rw [Option.map_some', joinSp_splitSp]
  exact ⟨hlen, by omega, hgen oracle rfl, hgen⟩

theorem C10_witness :
    generateSequence exContent exOrder 2 (fun _ => 0) 1 "a b".toList =
      some "a b".toList :=
  (C10_short_length_returns_seed exContent exOrder 2 (fun _ => 0) 1
    "a b".toList "a b".toList (by decide) (by decide) (by decide)).2.2.1

end MarkovSpec
